/-
Verification of the incremental indexing and hybrid retrieval engine of the
docbot repository: manifest diffing (src/db/manifest.ts), the embedding
batcher (src/db/embed.ts), the reranker (src/db/rerank.ts), the code chunker
(src/index/code-index.ts) and the sync coordinators (src/index/doc-index.ts,
src/index/code-index.ts), shallowly embedded in Lean 4.

JavaScript strings are modelled as `List Char` where character-level
operations matter (the batcher and chunkers) and as Lean `String` where only
equality of keys matters (paths, hashes).  JavaScript `Record`s and `Map`s
are modelled as insertion-ordered association lists, matching the iteration
order semantics the source relies on (`Object.keys`, `for..of` over a `Map`).
-/
import Mathlib

namespace Docbot

/-! ### Association-list model of JS objects / Maps -/

/-- JS property read `obj[k]` (first binding wins; well-formed objects have
distinct keys). -/
def jsGet {β : Type} (l : List (String × β)) (k : String) : Option β :=
  match l with
  | [] => none
  | (k', v) :: rest => if k' = k then some v else jsGet rest k

/-- JS property write `obj[k] = v`: overwrite in place if the key exists,
otherwise append (JS objects keep insertion order). -/
def jsSet {β : Type} (l : List (String × β)) (k : String) (v : β) :
    List (String × β) :=
  match l with
  | [] => [(k, v)]
  | (k', v') :: rest =>
    if k' = k then (k, v) :: rest else (k', v') :: jsSet rest k v

/-- JS `delete obj[k]`. -/
def jsDelete {β : Type} (l : List (String × β)) (k : String) :
    List (String × β) :=
  match l with
  | [] => []
  | (k', v') :: rest =>
    if k' = k then jsDelete rest k else (k', v') :: jsDelete rest k

/-- `Object.keys(obj)` / iteration order of a `Map`. -/
def jsKeys {β : Type} (l : List (String × β)) : List String :=
  l.map Prod.fst

theorem jsKeys_cons {β : Type} (k : String) (v : β) (rest : List (String × β)) :
    jsKeys ((k, v) :: rest) = k :: jsKeys rest := rfl

theorem jsGet_eq_none {β : Type} (l : List (String × β)) (k : String) :
    jsGet l k = none ↔ k ∉ jsKeys l := by
  induction l with
  | nil => simp [jsGet, jsKeys]
  | cons p rest ih =>
    obtain ⟨k', v⟩ := p
    rw [jsKeys_cons, List.mem_cons]
    by_cases h : k' = k
    · subst h
      simp [jsGet]
    · simp only [jsGet, if_neg h, ih]
      constructor
      · intro hk hor
        rcases hor with he | hm
        · exact h he.symm
        · exact hk hm
      · intro hk hm
        exact hk (Or.inr hm)

theorem jsGet_isSome {β : Type} (l : List (String × β)) (k : String) :
    (jsGet l k).isSome ↔ k ∈ jsKeys l := by
  rw [Option.isSome_iff_ne_none, ne_eq, jsGet_eq_none, not_not]

theorem jsGet_jsDelete {β : Type} (l : List (String × β)) (k q : String) :
    jsGet (jsDelete l k) q = if q = k then none else jsGet l q := by
  induction l with
  | nil => simp [jsGet, jsDelete]
  | cons p rest ih =>
    obtain ⟨k', v⟩ := p
    by_cases hk : k' = k
    · subst hk
      by_cases hq : q = k'
      · subst hq
        simp [jsDelete, jsGet, ih]
      · simp [jsDelete, jsGet, ih, hq,
          show ¬k' = q from fun h => hq h.symm]
    · by_cases hq : q = k'
      · subst hq
        simp [jsDelete, jsGet, hk]
      · simp [jsDelete, jsGet, hk, ih, hq,
          show ¬k' = q from fun h => hq h.symm]

theorem jsGet_jsSet {β : Type} (l : List (String × β)) (k q : String) (v : β) :
    jsGet (jsSet l k v) q = if q = k then some v else jsGet l q := by
  induction l with
  | nil =>
    by_cases hq : q = k
    · subst hq
      simp [jsGet, jsSet]
    · simp [jsGet, jsSet, hq, show ¬k = q from fun h => hq h.symm]
  | cons p rest ih =>
    obtain ⟨k', v'⟩ := p
    by_cases hk : k' = k
    · subst hk
      by_cases hq : q = k'
      · subst hq
        simp [jsSet, jsGet]
      · simp [jsSet, jsGet, hq, show ¬k' = q from fun h => hq h.symm]
    · by_cases hq : q = k'
      · subst hq
        simp [jsSet, jsGet, hk]
      · simp [jsSet, jsGet, hk, hq, ih,
          show ¬k' = q from fun h => hq h.symm]

/-! ### Manifest data model (src/db/manifest.ts) -/

/-- `EmbeddedFile`: individual file entry in the manifest. -/
structure EmbeddedFile where
  hash : String
  chunkCount : Nat
  embeddedAt : Nat
  deriving DecidableEq, Repr

/-- `EmbeddingManifest`: full manifest structure.  The two corpus maps are
JS records, modelled as insertion-ordered association lists. -/
structure EmbeddingManifest where
  version : Int
  docs : List (String × EmbeddedFile)
  code : List (String × EmbeddedFile)
  deriving DecidableEq, Repr

/-- `ManifestDiff`: result of diffing current files against the manifest. -/
structure ManifestDiff where
  added : List String
  changed : List String
  removed : List String
  unchanged : List String
  deriving DecidableEq, Repr

def MANIFEST_VERSION : Int := 1

/-- The corpus selector `"docs" | "code"`. -/
inductive CorpusType where
  | docs
  | code
  deriving DecidableEq, Repr

def EmbeddingManifest.corpus (m : EmbeddingManifest) :
    CorpusType → List (String × EmbeddedFile)
  | .docs => m.docs
  | .code => m.code

/-- The first loop of `diffManifest`: classify each current file into
added / changed / unchanged by looking it up in the manifest section. -/
def diffCurrentLoop (manifestFiles : List (String × EmbeddedFile)) :
    List (String × String) → List String × List String × List String
  | [] => ([], [], [])
  | (path, hash) :: rest =>
    let (a, c, u) := diffCurrentLoop manifestFiles rest
    match jsGet manifestFiles path with
    | none => (path :: a, c, u)
    | some existing =>
      if existing.hash ≠ hash then (a, path :: c, u) else (a, c, path :: u)

/-- `diffManifest(currentFiles, manifestFiles)`: diff current files against
the manifest section to find what needs updating. -/
def diffManifest (currentFiles : List (String × String))
    (manifestFiles : List (String × EmbeddedFile)) : ManifestDiff :=
  let (added, changed, unchanged) := diffCurrentLoop manifestFiles currentFiles
  let removed :=
    (jsKeys manifestFiles).filter (fun path => (jsGet currentFiles path).isNone)
  { added := added, changed := changed, removed := removed,
    unchanged := unchanged }

/-- `updateManifestEntry(manifest, type, path, hash, chunkCount)`; the
`Date.now()` timestamp is passed explicitly. -/
def updateManifestEntry (manifest : EmbeddingManifest) (type : CorpusType)
    (path : String) (hash : String) (chunkCount : Nat) (now : Nat) :
    EmbeddingManifest :=
  match type with
  | .docs =>
    { manifest with
      docs := jsSet manifest.docs path
        { chunkCount := chunkCount, embeddedAt := now, hash := hash } }
  | .code =>
    { manifest with
      code := jsSet manifest.code path
        { chunkCount := chunkCount, embeddedAt := now, hash := hash } }

/-- `removeManifestEntry(manifest, type, path)`. -/
def removeManifestEntry (manifest : EmbeddingManifest) (type : CorpusType)
    (path : String) : EmbeddingManifest :=
  match type with
  | .docs => { manifest with docs := jsDelete manifest.docs path }
  | .code => { manifest with code := jsDelete manifest.code path }

/-! ### Characterisation of `diffManifest`'s classification -/

/-- Keys with distinct bindings: a JS `Map` or a well-formed `Record`. -/
def KeysNodup {β : Type} (l : List (String × β)) : Prop :=
  (jsKeys l).Nodup

/-- Lookup in a map with distinct keys finds exactly the unique binding. -/
theorem jsGet_eq_some_of_mem {β : Type} {l : List (String × β)}
    (hn : KeysNodup l) {p : String} {v : β} (hm : (p, v) ∈ l) :
    jsGet l p = some v := by
  induction l with
  | nil => cases hm
  | cons q rest ih =>
    obtain ⟨k', v'⟩ := q
    rcases List.mem_cons.mp hm with he | hr
    · obtain ⟨h1, h2⟩ := Prod.ext_iff.mp he
      subst h1
      subst h2
      simp [jsGet]
    · have hk : k' ≠ p := by
        intro he
        subst he
        exact (List.nodup_cons.mp hn).1
          (by simpa [jsKeys] using List.mem_map_of_mem Prod.fst hr)
      simpa [jsGet, hk] using ih (List.nodup_cons.mp hn).2 hr

theorem mem_of_jsGet_eq_some {β : Type} {l : List (String × β)} {p : String}
    {v : β} (h : jsGet l p = some v) : (p, v) ∈ l := by
  induction l with
  | nil => simp [jsGet] at h
  | cons q rest ih =>
    obtain ⟨k', v'⟩ := q
    by_cases hk : k' = p
    · subst hk
      simp [jsGet] at h
      simp [h]
    · simp only [jsGet, if_neg hk] at h
      exact List.mem_cons.mpr (Or.inr (ih h))

/-- The classification decision `diffManifest` makes per current file:
`none` ⇒ added, different hash ⇒ changed, same hash ⇒ unchanged. -/
def classifyAdded (manifestFiles : List (String × EmbeddedFile))
    (ph : String × String) : Option String :=
  match jsGet manifestFiles ph.1 with
  | none => some ph.1
  | some _ => none

def classifyChanged (manifestFiles : List (String × EmbeddedFile))
    (ph : String × String) : Option String :=
  match jsGet manifestFiles ph.1 with
  | none => none
  | some existing => if existing.hash ≠ ph.2 then some ph.1 else none

def classifyUnchanged (manifestFiles : List (String × EmbeddedFile))
    (ph : String × String) : Option String :=
  match jsGet manifestFiles ph.1 with
  | none => none
  | some existing => if existing.hash ≠ ph.2 then none else some ph.1

/-- The one-pass loop of `diffManifest` computes the three filterMaps. -/
theorem diffCurrentLoop_eq (manifestFiles : List (String × EmbeddedFile))
    (current : List (String × String)) :
    diffCurrentLoop manifestFiles current =
      (current.filterMap (classifyAdded manifestFiles),
       current.filterMap (classifyChanged manifestFiles),
       current.filterMap (classifyUnchanged manifestFiles)) := by
  induction current with
  | nil => simp [diffCurrentLoop]
  | cons q rest ih =>
    obtain ⟨path, hash⟩ := q
    simp only [diffCurrentLoop, ih, List.filterMap_cons]
    cases hm : jsGet manifestFiles path with
    | none => simp [classifyAdded, classifyChanged, classifyUnchanged, hm]
    | some e =>
      by_cases hh : e.hash ≠ hash <;>
        simp [classifyAdded, classifyChanged, classifyUnchanged, hm, hh]

theorem mem_added_iff (manifestFiles : List (String × EmbeddedFile))
    {current : List (String × String)} (hn : KeysNodup current) (p : String) :
    p ∈ (diffManifest current manifestFiles).added ↔
      (jsGet current p).isSome ∧ jsGet manifestFiles p = none := by
  simp only [diffManifest, diffCurrentLoop_eq, List.mem_filterMap]
  constructor
  · rintro ⟨⟨q, h⟩, hmem, hcl⟩
    simp only [classifyAdded] at hcl
    cases hm : jsGet manifestFiles q with
    | none =>
      simp only [hm] at hcl
      obtain rfl : q = p := by simpa using hcl
      exact ⟨by simp [jsGet_eq_some_of_mem hn hmem], hm⟩
    | some e => simp [hm] at hcl
  · rintro ⟨hsome, hnone⟩
    obtain ⟨h, hh⟩ := Option.isSome_iff_exists.mp hsome
    exact ⟨(p, h), mem_of_jsGet_eq_some hh, by simp [classifyAdded, hnone]⟩

theorem mem_changed_iff (manifestFiles : List (String × EmbeddedFile))
    {current : List (String × String)} (hn : KeysNodup current) (p : String) :
    p ∈ (diffManifest current manifestFiles).changed ↔
      ∃ h e, jsGet current p = some h ∧ jsGet manifestFiles p = some e ∧
        e.hash ≠ h := by
  simp only [diffManifest, diffCurrentLoop_eq, List.mem_filterMap]
  constructor
  · rintro ⟨⟨q, h⟩, hmem, hcl⟩
    simp only [classifyChanged] at hcl
    cases hm : jsGet manifestFiles q with
    | none => simp [hm] at hcl
    | some e =>
      simp only [hm] at hcl
      by_cases hh : e.hash ≠ h
      · rw [if_pos hh] at hcl
        obtain rfl : q = p := by simpa using hcl
        exact ⟨h, e, jsGet_eq_some_of_mem hn hmem, hm, hh⟩
      · rw [if_neg hh] at hcl; cases hcl
  · rintro ⟨h, e, hcur, hman, hne⟩
    refine ⟨(p, h), mem_of_jsGet_eq_some hcur, ?_⟩
    simp [classifyChanged, hman, hne]

theorem mem_unchanged_iff (manifestFiles : List (String × EmbeddedFile))
    {current : List (String × String)} (hn : KeysNodup current) (p : String) :
    p ∈ (diffManifest current manifestFiles).unchanged ↔
      ∃ h e, jsGet current p = some h ∧ jsGet manifestFiles p = some e ∧
        e.hash = h := by
  simp only [diffManifest, diffCurrentLoop_eq, List.mem_filterMap]
  constructor
  · rintro ⟨⟨q, h⟩, hmem, hcl⟩
    simp only [classifyUnchanged] at hcl
    cases hm : jsGet manifestFiles q with
    | none => simp [hm] at hcl
    | some e =>
      simp only [hm] at hcl
      by_cases hh : e.hash ≠ h
      · rw [if_pos hh] at hcl; cases hcl
      · rw [if_neg hh] at hcl
        obtain rfl : q = p := by simpa using hcl
        exact ⟨h, e, jsGet_eq_some_of_mem hn hmem, hm, not_not.mp hh⟩
  · rintro ⟨h, e, hcur, hman, heq⟩
    refine ⟨(p, h), mem_of_jsGet_eq_some hcur, ?_⟩
    simp [classifyUnchanged, hman, heq]

theorem mem_removed_iff (manifestFiles : List (String × EmbeddedFile))
    (current : List (String × String)) (p : String) :
    p ∈ (diffManifest current manifestFiles).removed ↔
      (jsGet manifestFiles p).isSome ∧ jsGet current p = none := by
  simp only [diffManifest, List.mem_filter, jsGet_isSome,
    Option.isNone_iff_eq_none, decide_eq_true_eq]

/-- C3: `diffManifest` classifies a path as added iff absent from the
manifest, changed iff present with a different hash, unchanged iff present
with the same hash, removed iff in the manifest but not in the current map;
the four output lists are pairwise disjoint and their union is the union of
the current map's keys and the manifest's keys. -/
theorem diffManifest_classification
    (current : List (String × String))
    (manifestFiles : List (String × EmbeddedFile))
    (hc : KeysNodup current) :
    (∀ p, p ∈ (diffManifest current manifestFiles).added ↔
      p ∈ jsKeys current ∧ p ∉ jsKeys manifestFiles) ∧
    (∀ p, p ∈ (diffManifest current manifestFiles).changed ↔
      ∃ h e, jsGet current p = some h ∧ jsGet manifestFiles p = some e ∧
        e.hash ≠ h) ∧
    (∀ p, p ∈ (diffManifest current manifestFiles).unchanged ↔
      ∃ h e, jsGet current p = some h ∧ jsGet manifestFiles p = some e ∧
        e.hash = h) ∧
    (∀ p, p ∈ (diffManifest current manifestFiles).removed ↔
      p ∈ jsKeys manifestFiles ∧ p ∉ jsKeys current) ∧
    (∀ p,
      (p ∈ (diffManifest current manifestFiles).added →
        p ∉ (diffManifest current manifestFiles).changed ∧
        p ∉ (diffManifest current manifestFiles).removed ∧
        p ∉ (diffManifest current manifestFiles).unchanged) ∧
      (p ∈ (diffManifest current manifestFiles).changed →
        p ∉ (diffManifest current manifestFiles).removed ∧
        p ∉ (diffManifest current manifestFiles).unchanged) ∧
      (p ∈ (diffManifest current manifestFiles).removed →
        p ∉ (diffManifest current manifestFiles).unchanged)) ∧
    (∀ p,
      (p ∈ (diffManifest current manifestFiles).added ∨
       p ∈ (diffManifest current manifestFiles).changed ∨
       p ∈ (diffManifest current manifestFiles).removed ∨
       p ∈ (diffManifest current manifestFiles).unchanged) ↔
      (p ∈ jsKeys current ∨ p ∈ jsKeys manifestFiles)) := by
  have hA := fun p => mem_added_iff manifestFiles hc p
  have hC := fun p => mem_changed_iff manifestFiles hc p
  have hU := fun p => mem_unchanged_iff manifestFiles hc p
  have hR := fun p => mem_removed_iff manifestFiles current p
  refine ⟨?_, fun p => hC p, fun p => hU p, ?_, ?_, ?_⟩
  · intro p
    rw [hA p, ← jsGet_isSome, ← jsGet_eq_none]
  · intro p
    rw [hR p, ← jsGet_isSome, ← jsGet_eq_none]
  · intro p
    simp only [hA p, hC p, hU p, hR p]
    cases hcur : jsGet current p with
    | none => simp [hcur]
    | some h =>
      cases hman : jsGet manifestFiles p with
      | none => simp [hcur, hman]
      | some e =>
        by_cases hh : e.hash = h <;> simp [hcur, hman, hh]
  · intro p
    simp only [hA p, hC p, hU p, hR p, ← jsGet_isSome]
    cases hcur : jsGet current p with
    | none =>
      cases hman : jsGet manifestFiles p with
      | none => simp [hcur, hman]
      | some e => simp [hcur, hman]
    | some h =>
      cases hman : jsGet manifestFiles p with
      | none => simp [hcur, hman]
      | some e =>
        by_cases hh : e.hash = h <;> simp [hcur, hman, hh]

/-- Closed witness for `diffManifest_classification` at a concrete pair of
maps: the path present only in the current map is classified added. -/
theorem diffManifest_classification_witness :
    "a" ∈ (diffManifest [("a", "h1"), ("b", "h2"), ("c", "h3")]
      [("b", ⟨"hX", 1, 0⟩), ("c", ⟨"h3", 2, 0⟩),
        ("d", ⟨"h4", 3, 0⟩)]).added :=
  ((diffManifest_classification [("a", "h1"), ("b", "h2"), ("c", "h3")]
    [("b", ⟨"hX", 1, 0⟩), ("c", ⟨"h3", 2, 0⟩), ("d", ⟨"h4", 3, 0⟩)]
    (show (jsKeys [("a", "h1"), ("b", "h2"), ("c", "h3")]).Nodup
      by decide)).1 "a").mpr ⟨by decide, by decide⟩

/-! ### Frame properties of the manifest mutators (C10) -/

/-- The other corpus selector. -/
def CorpusType.other : CorpusType → CorpusType
  | .docs => .code
  | .code => .docs

/-- C10: `updateManifestEntry` and `removeManifestEntry` modify only the
entry at `manifest[type][path]`: every other path of the same corpus map,
the entire other corpus map, and the version field are unchanged. -/
theorem manifest_mutators_frame (manifest : EmbeddingManifest)
    (type : CorpusType) (path hash : String) (chunkCount now : Nat)
    (q : String) (hq : q ≠ path) :
    (jsGet ((updateManifestEntry manifest type path hash chunkCount
        now).corpus type) q = jsGet (manifest.corpus type) q ∧
      (updateManifestEntry manifest type path hash chunkCount
        now).corpus type.other = manifest.corpus type.other ∧
      (updateManifestEntry manifest type path hash chunkCount now).version =
        manifest.version) ∧
    (jsGet ((removeManifestEntry manifest type path).corpus type) q =
        jsGet (manifest.corpus type) q ∧
      (removeManifestEntry manifest type path).corpus type.other =
        manifest.corpus type.other ∧
      (removeManifestEntry manifest type path).version = manifest.version) := by
  cases type <;>
    simp [updateManifestEntry, removeManifestEntry, EmbeddingManifest.corpus,
      CorpusType.other, jsGet_jsSet, jsGet_jsDelete, hq]

/-- Closed witness for `manifest_mutators_frame`. -/
theorem manifest_mutators_frame_witness :
    jsGet ((updateManifestEntry
        ⟨1, [("a", ⟨"h", 1, 0⟩)], []⟩ .docs "b" "h2" 2 5).corpus .docs) "a" =
      jsGet ((⟨1, [("a", ⟨"h", 1, 0⟩)], []⟩ :
        EmbeddingManifest).corpus .docs) "a" :=
  (manifest_mutators_frame ⟨1, [("a", ⟨"h", 1, 0⟩)], []⟩ .docs "b" "h2" 2 5 "a"
    (by decide)).1.1

/-! ### Manifest loading (C7)

`loadManifest` performs file I/O and `JSON.parse`; the file-system state is
modelled as `Option` (absent / present) and the parse outcome as `Except`
(the `catch` route / a parsed value).  The unchecked `as EmbeddingManifest`
cast means only the `version` field is ever validated, which is all the
routing inspects. -/

/-- Outcome of reading and `JSON.parse`-ing the manifest file: `none` means
the file does not exist (`existsSync` false); `some (.error _)` means
reading or parsing threw; `some (.ok m)` is the parsed value. -/
def ManifestFileState : Type := Option (Except String EmbeddingManifest)

/-- `createEmptyManifest()`. -/
def createEmptyManifest : EmbeddingManifest :=
  { code := [], docs := [], version := MANIFEST_VERSION }

/-- `loadManifest(path)`: load manifest from disk, or return the empty
manifest if not found, corrupt, or the version mismatches. -/
def loadManifest (file : ManifestFileState) : EmbeddingManifest :=
  match file with
  | none => createEmptyManifest
  | some (.error _) => createEmptyManifest
  | some (.ok parsed) =>
    if parsed.version ≠ MANIFEST_VERSION then createEmptyManifest else parsed

/-- C7: `loadManifest` never fails the run: absent file, unparsable content
and version mismatch all yield the empty manifest `{version: 1, docs: {},
code: {}}`, and a well-formed manifest with the matching version is returned
as parsed.  (Totality of `loadManifest` is the "never raises" part.) -/
theorem loadManifest_total_behavior :
    loadManifest none = ⟨1, [], []⟩ ∧
    (∀ e, loadManifest (some (.error e)) = ⟨1, [], []⟩) ∧
    (∀ m : EmbeddingManifest, m.version ≠ 1 →
      loadManifest (some (.ok m)) = ⟨1, [], []⟩) ∧
    (∀ docs code, loadManifest (some (.ok ⟨1, docs, code⟩)) =
      ⟨1, docs, code⟩) := by
  refine ⟨rfl, fun e => rfl, ?_, ?_⟩
  · intro m hv
    simp [loadManifest, MANIFEST_VERSION, hv, createEmptyManifest]
  · intro docs code
    simp [loadManifest, MANIFEST_VERSION, createEmptyManifest]

/-- Closed witness for `loadManifest_total_behavior`: a version-2 manifest
degrades to the empty manifest. -/
theorem loadManifest_total_behavior_witness :
    loadManifest (some (.ok ⟨2, [("a", ⟨"h", 1, 0⟩)], []⟩)) = ⟨1, [], []⟩ :=
  loadManifest_total_behavior.2.2.1 ⟨2, [("a", ⟨"h", 1, 0⟩)], []⟩ (by decide)

/-! ### Removal phase of a sync run (C5)

`DocIndex.syncFromDiff` (and `CodeIndex.handleRemovedFiles`) iterate over
`diff.removed`, first awaiting `deleteDocChunks` / `deleteCodeChunks`
(a Qdrant delete with filter `path == p`, `wait: true`) and then calling
`removeManifestEntry`.  The vector store is modelled through its contract as
a list of points carrying a payload path; the sequence of externally visible
operations is recorded as an event trace. -/

/-- A point in the vector store: stable id plus the payload `path` used by
the delete filter. -/
structure StorePoint where
  id : String
  path : String
  deriving DecidableEq, Repr

/-- `client.delete(collection, {filter: {must: [{key: "path", match:
{value: path}}]}, wait: true})` from src/db/qdrant.ts: removes every point
whose payload path equals `path`. -/
def deleteChunksByPath (store : List StorePoint) (path : String) :
    List StorePoint :=
  store.filter (fun pt => pt.path ≠ path)

/-- Externally visible operations of the removal loop, in program order. -/
inductive SyncEvent where
  | storeDelete (path : String)
  | manifestRemove (path : String)
  deriving DecidableEq, Repr

/-- The `for (const path of diff.removed)` loop of the sync coordinators:
delete the path's chunks from the vector store, then remove its manifest
entry. -/
def processRemoved (type : CorpusType) :
    List String → List StorePoint → EmbeddingManifest →
      List StorePoint × EmbeddingManifest × List SyncEvent
  | [], store, manifest => (store, manifest, [])
  | p :: rest, store, manifest =>
    let store' := deleteChunksByPath store p
    let manifest' := removeManifestEntry manifest type p
    let (s, m, tr) := processRemoved type rest store' manifest'
    (s, m, .storeDelete p :: .manifestRemove p :: tr)

theorem processRemoved_store_mem {type : CorpusType} {removed : List String}
    {store : List StorePoint} {manifest : EmbeddingManifest} {pt : StorePoint}
    (h : pt ∈ (processRemoved type removed store manifest).1) :
    pt ∈ store ∧ pt.path ∉ removed := by
  induction removed generalizing store manifest with
  | nil => simpa [processRemoved] using h
  | cons q rest ih =>
    simp only [processRemoved] at h
    obtain ⟨hmem, hrest⟩ := ih h
    have hq : pt ∈ store ∧ pt.path ≠ q := by
      simpa [deleteChunksByPath, List.mem_filter] using hmem
    exact ⟨hq.1, by
      intro hc
      rcases List.mem_cons.mp hc with he | hm
      · exact hq.2 he
      · exact hrest hm⟩

theorem processRemoved_manifest_none {type : CorpusType}
    {removed : List String} {store : List StorePoint}
    {manifest : EmbeddingManifest} {p : String}
    (hnone : jsGet (manifest.corpus type) p = none) :
    jsGet (((processRemoved type removed store manifest).2.1).corpus type) p =
      none := by
  induction removed generalizing store manifest with
  | nil => simpa [processRemoved] using hnone
  | cons q rest ih =>
    simp only [processRemoved]
    refine ih ?_
    cases type <;>
      simp [removeManifestEntry, EmbeddingManifest.corpus, jsGet_jsDelete,
        hnone] at hnone ⊢

theorem processRemoved_manifest_removed {type : CorpusType}
    {removed : List String} {store : List StorePoint}
    {manifest : EmbeddingManifest} {p : String} (hp : p ∈ removed) :
    jsGet (((processRemoved type removed store manifest).2.1).corpus type) p =
      none := by
  induction removed generalizing store manifest with
  | nil => cases hp
  | cons q rest ih =>
    simp only [processRemoved]
    rcases List.mem_cons.mp hp with he | hm
    · subst he
      refine processRemoved_manifest_none ?_
      cases type <;> simp [removeManifestEntry, EmbeddingManifest.corpus,
        jsGet_jsDelete]
    · exact ih hm

theorem processRemoved_trace (type : CorpusType) (removed : List String)
    (store : List StorePoint) (manifest : EmbeddingManifest) :
    (processRemoved type removed store manifest).2.2 =
      removed.flatMap
        (fun p => [SyncEvent.storeDelete p, SyncEvent.manifestRemove p]) := by
  induction removed generalizing store manifest with
  | nil => simp [processRemoved]
  | cons q rest ih => simp [processRemoved, ih]

theorem trace_remove_preceded_by_delete {removed : List String} {p : String}
    {j : Nat}
    (hj : (removed.flatMap (fun q =>
        [SyncEvent.storeDelete q, SyncEvent.manifestRemove q]))[j]? =
      some (SyncEvent.manifestRemove p)) :
    ∃ i, i < j ∧
      (removed.flatMap (fun q =>
        [SyncEvent.storeDelete q, SyncEvent.manifestRemove q]))[i]? =
        some (SyncEvent.storeDelete p) := by
  induction removed generalizing j with
  | nil => simp at hj
  | cons q rest ih =>
    match j with
    | 0 => simp at hj
    | 1 =>
      simp at hj
      exact ⟨0, by omega, by simp [hj]⟩
    | n + 2 =>
      simp only [List.flatMap_cons, List.cons_append, List.nil_append,
        List.getElem?_cons_succ] at hj ⊢
      obtain ⟨i, hi, hget⟩ := ih hj
      exact ⟨i + 2, by omega, by simpa using hget⟩

/-- C5: while processing the `removed` set, the store delete for a path
always precedes the manifest removal for that path in the event trace, and
after the removal phase completes the manifest no longer contains the path
and the vector store holds zero points whose payload path equals it. -/
theorem removal_phase_consistency (type : CorpusType) (removed : List String)
    (store : List StorePoint) (manifest : EmbeddingManifest) (p : String)
    (hp : p ∈ removed) :
    (∀ j : Nat, (processRemoved type removed store manifest).2.2[j]? =
        some (SyncEvent.manifestRemove p) →
      ∃ i : Nat, i < j ∧
        (processRemoved type removed store manifest).2.2[i]? =
          some (SyncEvent.storeDelete p)) ∧
    (∃ i j : Nat, i < j ∧
      (processRemoved type removed store manifest).2.2[i]? =
        some (SyncEvent.storeDelete p) ∧
      (processRemoved type removed store manifest).2.2[j]? =
        some (SyncEvent.manifestRemove p)) ∧
    jsGet (((processRemoved type removed store manifest).2.1).corpus type) p =
      none ∧
    (∀ pt ∈ (processRemoved type removed store manifest).1, pt.path ≠ p) := by
  refine ⟨?_, ?_, processRemoved_manifest_removed hp, ?_⟩
  · intro j hj
    rw [processRemoved_trace] at hj ⊢
    exact trace_remove_preceded_by_delete hj
  · rw [processRemoved_trace]
    obtain ⟨l₁, l₂, rfl⟩ := List.append_of_mem hp
    refine ⟨2 * l₁.length, 2 * l₁.length + 1, by omega, ?_, ?_⟩
    · rw [List.flatMap_append]
      have hlen : (l₁.flatMap (fun q =>
          [SyncEvent.storeDelete q, SyncEvent.manifestRemove q])).length =
          2 * l₁.length := by
        induction l₁ with
        | nil => simp
        | cons x xs ihx => simp at ihx ⊢; omega
      rw [List.getElem?_append_right (by omega), hlen]
      simp
    · rw [List.flatMap_append]
      have hlen : (l₁.flatMap (fun q =>
          [SyncEvent.storeDelete q, SyncEvent.manifestRemove q])).length =
          2 * l₁.length := by
        induction l₁ with
        | nil => simp
        | cons x xs ihx => simp at ihx ⊢; omega
      rw [List.getElem?_append_right (by omega), hlen]
      simp
  · intro pt hpt hc
    have := processRemoved_store_mem hpt
    exact this.2 (hc ▸ hp)

/-- Closed witness for `removal_phase_consistency`. -/
theorem removal_phase_consistency_witness :
    jsGet ((processRemoved .docs ["a"] [⟨"id1", "a"⟩, ⟨"id2", "b"⟩]
        ⟨1, [("a", ⟨"h", 1, 0⟩)], []⟩).2.1.corpus .docs) "a" = none :=
  (removal_phase_consistency .docs ["a"] [⟨"id1", "a"⟩, ⟨"id2", "b"⟩]
    ⟨1, [("a", ⟨"h", 1, 0⟩)], []⟩ "a" (by decide)).2.2.1

/-! ### Manifest effect of a whole sync run (C4)

`DocIndex.syncFromDiff` processes `diff.removed` (remove manifest entry),
then `diff.changed` and `diff.added` (both call `embedFile` and then
`updateManifestEntry(manifest, "docs", path, fileHashes.get(path)!,
chunks)`).  Only the manifest trajectory and the set of `embedFile`
invocations matter here; chunk counts are abstracted by a function of the
path.  `fileHashes.get(path)!` is modelled with a default that is never
reached because every changed/added path is a key of `fileHashes`. -/

/-- The paths on which `syncFromDiff` invokes `embedFile` (and hence
`embedTexts`): the changed loop's paths followed by the added loop's. -/
def syncEmbeddedPaths (diff : ManifestDiff) : List String :=
  diff.changed ++ diff.added

/-- The manifest entry written for a path during sync. -/
def syncEntry (fileHashes : List (String × String)) (chunksOf : String → Nat)
    (now : Nat) (p : String) : EmbeddedFile :=
  { chunkCount := chunksOf p, embeddedAt := now,
    hash := (jsGet fileHashes p).getD "" }

/-- The docs-manifest trajectory of `DocIndex.syncFromDiff`: removals,
then changed updates, then added updates. -/
def applySyncManifest (diff : ManifestDiff)
    (fileHashes : List (String × String)) (chunksOf : String → Nat)
    (now : Nat) (manifest : EmbeddingManifest) : EmbeddingManifest :=
  let m1 := diff.removed.foldl
    (fun m p => removeManifestEntry m .docs p) manifest
  let m2 := diff.changed.foldl
    (fun m p => updateManifestEntry m .docs p
      ((jsGet fileHashes p).getD "") (chunksOf p) now) m1
  diff.added.foldl
    (fun m p => updateManifestEntry m .docs p
      ((jsGet fileHashes p).getD "") (chunksOf p) now) m2

theorem jsGet_removeFold (L : List String) (m : EmbeddingManifest)
    (q : String) :
    jsGet ((L.foldl (fun m p => removeManifestEntry m .docs p) m).docs) q =
      if q ∈ L then none else jsGet m.docs q := by
  induction L generalizing m with
  | nil => simp
  | cons p rest ih =>
    rw [List.foldl_cons, ih]
    by_cases hr : q ∈ rest
    · simp [hr]
    · by_cases hp : q = p <;>
        simp [hr, hp, removeManifestEntry, jsGet_jsDelete]

theorem jsGet_updateFold (fileHashes : List (String × String))
    (chunksOf : String → Nat) (now : Nat) (L : List String)
    (m : EmbeddingManifest) (q : String) :
    jsGet ((L.foldl (fun m p => updateManifestEntry m .docs p
        ((jsGet fileHashes p).getD "") (chunksOf p) now) m).docs) q =
      if q ∈ L then some (syncEntry fileHashes chunksOf now q)
      else jsGet m.docs q := by
  induction L generalizing m with
  | nil => simp
  | cons p rest ih =>
    rw [List.foldl_cons, ih]
    by_cases hr : q ∈ rest
    · simp [hr]
    · by_cases hp : q = p <;>
        simp [hr, hp, updateManifestEntry, jsGet_jsSet, syncEntry]

/-- After a successful sync, every path of the scan is recorded with exactly
its scanned hash. -/
theorem applySync_records_scan {current : List (String × String)}
    {manifest : EmbeddingManifest} (hc : KeysNodup current)
    (chunksOf : String → Nat) (now : Nat) {p h : String}
    (hcur : jsGet current p = some h) :
    ∃ e, jsGet ((applySyncManifest (diffManifest current manifest.docs)
        current chunksOf now manifest).docs) p = some e ∧ e.hash = h := by
  have hA := mem_added_iff manifest.docs hc p
  have hC := mem_changed_iff manifest.docs hc p
  have hR := mem_removed_iff manifest.docs current p
  simp only [applySyncManifest, jsGet_updateFold, jsGet_removeFold]
  by_cases hadd : p ∈ (diffManifest current manifest.docs).added
  · exact ⟨syncEntry current chunksOf now p, by simp [hadd],
      by simp [syncEntry, hcur]⟩
  · by_cases hchg : p ∈ (diffManifest current manifest.docs).changed
    · exact ⟨syncEntry current chunksOf now p, by simp [hadd, hchg],
        by simp [syncEntry, hcur]⟩
    · have hrem : p ∉ (diffManifest current manifest.docs).removed := by
        rw [hR]
        simp [hcur]
      cases hman : jsGet manifest.docs p with
      | none =>
        exact absurd (hA.mpr ⟨by simp [hcur], hman⟩) hadd
      | some e =>
        by_cases hh : e.hash = h
        · exact ⟨e, by simp [hadd, hchg, hrem, hman], hh⟩
        · exact absurd (hC.mpr ⟨h, e, hcur, hman, hh⟩) hchg

/-- Sync introduces no paths outside the scan. -/
theorem applySync_no_ghost_paths {current : List (String × String)}
    {manifest : EmbeddingManifest} (hc : KeysNodup current)
    (chunksOf : String → Nat) (now : Nat) {p : String}
    (hcur : jsGet current p = none) :
    jsGet ((applySyncManifest (diffManifest current manifest.docs)
        current chunksOf now manifest).docs) p = none := by
  have hA := mem_added_iff manifest.docs hc p
  have hC := mem_changed_iff manifest.docs hc p
  have hR := mem_removed_iff manifest.docs current p
  have hadd : p ∉ (diffManifest current manifest.docs).added := by
    rw [hA]
    simp [hcur]
  have hchg : p ∉ (diffManifest current manifest.docs).changed := by
    rw [hC]
    simp [hcur]
  simp only [applySyncManifest, jsGet_updateFold, jsGet_removeFold]
  cases hman : jsGet manifest.docs p with
  | none => simp [hadd, hchg, hman]
  | some e =>
    have hrem : p ∈ (diffManifest current manifest.docs).removed :=
      hR.mpr ⟨by simp [hman], hcur⟩
    simp [hadd, hchg, hrem]

/-- Pointwise `some`-valued filterMap is a map. -/
theorem filterMap_eq_map_of_some {α β : Type} {f : α → Option β}
    {g : α → β} {l : List α} (h : ∀ x ∈ l, f x = some (g x)) :
    l.filterMap f = l.map g := by
  induction l with
  | nil => simp
  | cons x rest ih =>
    simp only [List.filterMap_cons, h x (by simp), List.map_cons]
    rw [ih (fun y hy => h y (by simp [hy]))]

/-- C4: after a successful sync, the manifest records each surviving path
with exactly the hash from the scan; a second scan over unchanged contents
followed by `diffManifest` classifies every path as unchanged (empty added,
changed and removed lists), and the second sync issues zero embedding
calls. -/
theorem sync_unchanged_idempotent (current : List (String × String))
    (manifest : EmbeddingManifest) (chunksOf : String → Nat) (now : Nat)
    (hc : KeysNodup current) :
    (∀ p h, jsGet current p = some h →
      ∃ e, jsGet ((applySyncManifest (diffManifest current manifest.docs)
          current chunksOf now manifest).docs) p = some e ∧ e.hash = h) ∧
    (diffManifest current
        (applySyncManifest (diffManifest current manifest.docs)
          current chunksOf now manifest).docs) =
      { added := [], changed := [], removed := [],
        unchanged := jsKeys current } ∧
    syncEmbeddedPaths
        (diffManifest current
          (applySyncManifest (diffManifest current manifest.docs)
            current chunksOf now manifest).docs) = [] := by
  set m' := applySyncManifest (diffManifest current manifest.docs)
    current chunksOf now manifest with hm'
  have hrec : ∀ p h, jsGet current p = some h →
      ∃ e, jsGet m'.docs p = some e ∧ e.hash = h :=
    fun p h hcur => applySync_records_scan hc chunksOf now hcur
  have hghost : ∀ p, jsGet current p = none → jsGet m'.docs p = none :=
    fun p hcur => applySync_no_ghost_paths hc chunksOf now hcur
  have hdiff : diffManifest current m'.docs =
      { added := [], changed := [], removed := [],
        unchanged := jsKeys current } := by
    have hkey : ∀ ph ∈ current, jsGet current ph.1 = some ph.2 :=
      fun ph hph => jsGet_eq_some_of_mem hc (by simpa using hph)
    simp only [diffManifest, diffCurrentLoop_eq]
    have hadded : current.filterMap (classifyAdded m'.docs) = [] := by
      rw [List.filterMap_eq_nil_iff]
      intro ph hph
      obtain ⟨e, he, _⟩ := hrec ph.1 ph.2 (hkey ph hph)
      simp [classifyAdded, he]
    have hchanged : current.filterMap (classifyChanged m'.docs) = [] := by
      rw [List.filterMap_eq_nil_iff]
      intro ph hph
      obtain ⟨e, he, hh⟩ := hrec ph.1 ph.2 (hkey ph hph)
      simp [classifyChanged, he, hh]
    have hunchanged : current.filterMap (classifyUnchanged m'.docs) =
        jsKeys current := by
      refine filterMap_eq_map_of_some ?_
      intro ph hph
      obtain ⟨e, he, hh⟩ := hrec ph.1 ph.2 (hkey ph hph)
      simp [classifyUnchanged, he, hh]
    have hremoved : (jsKeys m'.docs).filter
        (fun path => (jsGet current path).isNone) = [] := by
      rw [List.filter_eq_nil_iff]
      intro p hp
      simp only [Option.isNone_iff_eq_none, decide_eq_true_eq]
      intro hcur
      have hg := hghost p hcur
      rw [jsGet_eq_none] at hg
      exact hg hp
    simp only [hadded, hchanged, hunchanged, hremoved]
  exact ⟨hrec, hdiff, by simp [syncEmbeddedPaths, hdiff]⟩

/-- Closed witness for `sync_unchanged_idempotent`: one added, one changed,
one removed path; the rerun diff is all-unchanged and embeds nothing. -/
theorem sync_unchanged_idempotent_witness :
    syncEmbeddedPaths
      (diffManifest [("a", "h1"), ("b", "h2")]
        (applySyncManifest
          (diffManifest [("a", "h1"), ("b", "h2")]
            [("b", ⟨"old", 1, 0⟩), ("c", ⟨"h3", 1, 0⟩)])
          [("a", "h1"), ("b", "h2")] (fun _ => 1) 7
          ⟨1, [("b", ⟨"old", 1, 0⟩), ("c", ⟨"h3", 1, 0⟩)], []⟩).docs) = [] :=
  (sync_unchanged_idempotent [("a", "h1"), ("b", "h2")]
    ⟨1, [("b", ⟨"old", 1, 0⟩), ("c", ⟨"h3", 1, 0⟩)], []⟩ (fun _ => 1) 7
    (show (jsKeys [("a", "h1"), ("b", "h2")]).Nodup by decide)).2.2

/-! ### Embedding batcher (src/db/embed.ts)

JS strings are `List Char` here; `embedMany` is the external provider, so
the batcher is modelled by the exact sequence of batches it sends
(`embedTextsBatches`) and the embeddings it returns are the per-batch
`map emb` results concatenated in issue order (`embedTexts`), matching the
`embeddings.push(...)` accumulation of the source. -/

/-- JS strings, character-exact. -/
abbrev Str := List Char

/-- Whitespace recognised by `String.prototype.trim` (the subset relevant
to source text). -/
def isJsWs (c : Char) : Bool :=
  c = ' ' ∨ c = '\t' ∨ c = '\n' ∨ c = '\r'

/-- `s.trim()`. -/
def jsTrim (s : Str) : Str :=
  ((s.dropWhile isJsWs).reverse.dropWhile isJsWs).reverse

def splitNlAux : List Char → List Char → List Str
  | [], cur => [cur.reverse]
  | c :: rest, cur =>
    if c = '\n' then cur.reverse :: splitNlAux rest []
    else splitNlAux rest (c :: cur)

/-- `s.split("\n")`. -/
def strSplitNl (s : Str) : List Str := splitNlAux s []

/-- `MAX_TOKENS_PER_BATCH = 6000`. -/
def MAX_TOKENS_PER_BATCH : Nat := 6000

/-- `MAX_CHARS_PER_BATCH = Math.floor(6000 * 1.2) = 7200`. -/
def MAX_CHARS_PER_BATCH : Nat := 7200

/-- `MAX_CHARS_PER_TEXT = 6000`. -/
def MAX_CHARS_PER_TEXT : Nat := 6000

/-- `BATCH_SIZE = 50` of `embedOversizedTexts`. -/
def BATCH_SIZE : Nat := 50

/-- The loop body of `splitLinesIntoChunks`, carrying `currentChunk`. -/
def splitLinesAux (maxChars : Nat) : List Str → Str → List Str
  | [], current =>
    if jsTrim current ≠ [] then [jsTrim current] else []
  | line :: rest, current =>
    if current.length + line.length + 1 > maxChars ∧ current.length > 0 then
      jsTrim current :: splitLinesAux maxChars rest line
    else
      splitLinesAux maxChars rest
        (if current.isEmpty then line else current ++ '\n' :: line)

/-- `splitLinesIntoChunks(lines, maxChars)`. -/
def splitLinesIntoChunks (lines : List Str) (maxChars : Nat) : List Str :=
  splitLinesAux maxChars lines []

/-- The `for (let i = 0; i < chunk.length; i += maxChars)` slicing loop of
`splitOversizedChunks` on a chunk longer than `maxChars` (the source only
runs it with `maxChars = MAX_CHARS_PER_TEXT > 0`). -/
def hardSliceLoop (maxChars : Nat) : Str → List Str
  | [] => []
  | c :: rest =>
    (c :: rest).take maxChars :: hardSliceLoop maxChars (rest.drop (maxChars - 1))
termination_by s => s.length
decreasing_by
  simp only [List.length_drop, List.length_cons]
  omega

/-- `splitOversizedChunks(chunks, maxChars)`. -/
def splitOversizedChunks (chunks : List Str) (maxChars : Nat) : List Str :=
  chunks.flatMap
    (fun chunk =>
      if chunk.length ≤ maxChars then [chunk] else hardSliceLoop maxChars chunk)

/-- `splitTextIntoChunks(text, maxChars)`. -/
def splitTextIntoChunks (text : Str) (maxChars : Nat) : List Str :=
  if text.length ≤ maxChars then [text]
  else splitOversizedChunks (splitLinesIntoChunks (strSplitNl text) maxChars)
    maxChars

/-- `partitionTexts(texts)`, returning `(normal, oversized)` with each list
in input order. -/
def partitionTexts (texts : List Str) : List Str × List Str :=
  (texts.filter (fun t => ¬t.length > MAX_CHARS_PER_TEXT),
   texts.filter (fun t => t.length > MAX_CHARS_PER_TEXT))

/-- The `for (let i = 0; i < chunks.length; i += BATCH_SIZE)` grouping of
`embedOversizedTexts`: fixed-size sub-batches of up to 50 sub-chunks. -/
def batchFifty : List Str → List (List Str)
  | [] => []
  | c :: rest => (c :: rest).take BATCH_SIZE :: batchFifty (rest.drop (BATCH_SIZE - 1))
termination_by l => l.length
decreasing_by
  simp only [List.length_drop, List.length_cons]
  omega

/-- The batches `embedOversizedTexts(oversized)` passes to `embedMany`, in
issue order: per oversized text, its sub-chunks in groups of 50. -/
def embedOversizedBatches (oversized : List Str) : List (List Str) :=
  oversized.flatMap
    (fun text => batchFifty (splitTextIntoChunks text MAX_CHARS_PER_TEXT))

/-- The loop of `embedTextsInBatches`, carrying `currentBatch` and
`currentBatchChars`, returning the batches flushed to `embedMany` in order.
`currentBatchChars > MAX_CHARS_PER_BATCH * 0.9` compares an integer with
the float `6480.0000000000001…`; for integers it is exactly
`10 * currentBatchChars > 9 * MAX_CHARS_PER_BATCH`. -/
def batchLoop : List Str → List Str → Nat → List (List Str)
  | [], currentBatch, _ =>
    if currentBatch.isEmpty then [] else [currentBatch]
  | t :: rest, currentBatch, currentBatchChars =>
    if t.length > MAX_CHARS_PER_TEXT then
      (if currentBatch.isEmpty then [[t]] else [currentBatch, [t]]) ++
        batchLoop rest [] 0
    else if ¬currentBatch.isEmpty ∧
        (currentBatchChars + t.length > MAX_CHARS_PER_BATCH ∨
         10 * currentBatchChars > 9 * MAX_CHARS_PER_BATCH) then
      currentBatch :: batchLoop rest [t] t.length
    else
      batchLoop rest (currentBatch ++ [t]) (currentBatchChars + t.length)

/-- Batches issued by `embedTextsInBatches(texts)`. -/
def embedTextsInBatchesBatches (texts : List Str) : List (List Str) :=
  batchLoop texts [] 0

/-- Batches issued by `embedNormalTexts(texts, _)`: one call if the total
fits the batch budget, otherwise the greedy batcher. -/
def embedNormalTextsBatches (texts : List Str) : List (List Str) :=
  if (texts.map List.length).sum ≤ MAX_CHARS_PER_BATCH then [texts]
  else embedTextsInBatchesBatches texts

/-- Batches issued by `embedTexts(texts)`, in issue order: all
oversized-derived batches first, then the normal-text batches. -/
def embedTextsBatches (texts : List Str) : List (List Str) :=
  if texts.isEmpty then []
  else
    let oBatches := embedOversizedBatches (partitionTexts texts).2
    if (partitionTexts texts).1.isEmpty then oBatches
    else oBatches ++ embedNormalTextsBatches (partitionTexts texts).1

/-- `embedTexts(texts)` with the provider abstracted as `emb`: the returned
vectors are the per-batch `embedMany` results concatenated in issue order. -/
def embedTexts {V : Type} (emb : Str → V) (texts : List Str) : List V :=
  (embedTextsBatches texts).flatMap (fun batch => batch.map emb)

/-! ### Batcher order preservation (C1) -/

theorem batchLoop_join (ts : List Str) (cur : List Str) (n : Nat) :
    (batchLoop ts cur n).flatMap id = cur ++ ts := by
  induction ts generalizing cur n with
  | nil =>
    by_cases h : cur.isEmpty
    · simp [batchLoop, h, List.isEmpty_iff.mp h]
    · simp [batchLoop, h]
  | cons t rest ih =>
    simp only [batchLoop]
    by_cases h1 : t.length > MAX_CHARS_PER_TEXT
    · rw [if_pos h1]
      by_cases h2 : cur.isEmpty
      · simp [h2, List.isEmpty_iff.mp h2, ih]
      · simp [h2, ih]
    · rw [if_neg h1]
      by_cases h2 : ¬cur.isEmpty ∧
          (n + t.length > MAX_CHARS_PER_BATCH ∨
           10 * n > 9 * MAX_CHARS_PER_BATCH)
      · rw [if_pos h2]
        simp [ih]
      · rw [if_neg h2]
        simp [ih]

/-- All embeddings returned by `embedTexts`, decomposed by origin: the
oversized-derived vectors (one per sub-chunk, in sub-chunk order) come
first, then one vector per normal text in input order. -/
theorem embedTexts_eq_split {V : Type} (emb : Str → V) (texts : List Str) :
    embedTexts emb texts =
      (embedOversizedBatches (partitionTexts texts).2).flatMap
        (fun b => b.map emb) ++
      ((partitionTexts texts).1).map emb := by
  unfold embedTexts embedTextsBatches
  by_cases he : texts.isEmpty
  · have : texts = [] := List.isEmpty_iff.mp he
    subst this
    simp [partitionTexts, embedOversizedBatches]
  · rw [if_neg (by simp [he])]
    by_cases hn : (partitionTexts texts).1.isEmpty
    · rw [if_pos hn]
      simp [List.isEmpty_iff.mp hn]
    · rw [if_neg hn]
      rw [List.flatMap_append]
      congr 1
      have hle : ∀ t ∈ (partitionTexts texts).1,
          t.length ≤ MAX_CHARS_PER_TEXT := by
        intro t ht
        simp only [partitionTexts, List.mem_filter, decide_eq_true_eq] at ht
        omega
      unfold embedNormalTextsBatches
      by_cases hfit : (((partitionTexts texts).1).map List.length).sum ≤
          MAX_CHARS_PER_BATCH
      · rw [if_pos hfit]
        simp
      · rw [if_neg hfit]
        have hjoin := batchLoop_join (partitionTexts texts).1 [] 0
        calc (embedTextsInBatchesBatches (partitionTexts texts).1).flatMap
              (fun b => b.map emb)
            = ((embedTextsInBatchesBatches
                (partitionTexts texts).1).flatMap id).map emb := by
              rw [List.map_flatMap]
              simp [Function.comp]
          _ = ((partitionTexts texts).1).map emb := by
              rw [embedTextsInBatchesBatches, hjoin]
              simp

/-- C1 (amended): whenever no input text exceeds the 6000-character
per-item ceiling, `embedTexts(texts)` returns exactly one vector per input
text, in input order — the i-th vector is the embedding of `texts[i]`. -/
theorem embedTexts_preserves_order {V : Type} (emb : Str → V)
    (texts : List Str) (h : ∀ t ∈ texts, t.length ≤ MAX_CHARS_PER_TEXT) :
    embedTexts emb texts = texts.map emb := by
  have hover : (partitionTexts texts).2 = [] := by
    simp only [partitionTexts, List.filter_eq_nil_iff, decide_eq_true_eq]
    intro t ht
    exact Nat.not_lt.mpr (h t ht)
  have hnorm : (partitionTexts texts).1 = texts := by
    simp only [partitionTexts]
    rw [List.filter_eq_self]
    intro t ht
    simpa using Nat.not_lt.mpr (h t ht)
  rw [embedTexts_eq_split, hover, hnorm]
  simp [embedOversizedBatches]

/-- Closed witness for `embedTexts_preserves_order`. -/
theorem embedTexts_preserves_order_witness :
    embedTexts (fun s : Str => s.length) [['h', 'i'], ['y', 'o', '!']] =
      [2, 3] := by
  rw [embedTexts_preserves_order (fun s : Str => s.length)
    [['h', 'i'], ['y', 'o', '!']] (by decide)]
  rfl

/-! ### Batcher budget bounds (C2) -/

theorem hardSliceLoop_chunk_le (k : Nat) (s : Str) :
    ∀ b ∈ hardSliceLoop k s, b.length ≤ k := by
  induction s using hardSliceLoop.induct k with
  | case1 => simp [hardSliceLoop]
  | case2 c rest ih =>
    rw [hardSliceLoop]
    intro b hb
    rcases List.mem_cons.mp hb with he | hm
    · subst he
      simp
    · exact ih b hm

theorem splitTextIntoChunks_chunk_le (text : Str) :
    ∀ c ∈ splitTextIntoChunks text MAX_CHARS_PER_TEXT,
      c.length ≤ MAX_CHARS_PER_TEXT := by
  unfold splitTextIntoChunks
  by_cases hfit : text.length ≤ MAX_CHARS_PER_TEXT
  · rw [if_pos hfit]
    intro c hc
    rw [List.mem_singleton] at hc
    exact hc ▸ hfit
  · rw [if_neg hfit]
    intro c hc
    rw [splitOversizedChunks, List.mem_flatMap] at hc
    obtain ⟨chunk, _, hcc⟩ := hc
    by_cases hck : chunk.length ≤ MAX_CHARS_PER_TEXT
    · rw [if_pos hck, List.mem_singleton] at hcc
      exact hcc ▸ hck
    · rw [if_neg hck] at hcc
      exact hardSliceLoop_chunk_le MAX_CHARS_PER_TEXT chunk c hcc

theorem batchFifty_size_mem (l : List Str) :
    ∀ b ∈ batchFifty l, b.length ≤ BATCH_SIZE ∧ ∀ t ∈ b, t ∈ l := by
  induction l using batchFifty.induct with
  | case1 => simp [batchFifty]
  | case2 c rest ih =>
    rw [batchFifty]
    intro b hb
    rcases List.mem_cons.mp hb with he | hm
    · subst he
      exact ⟨by simp, fun t ht => List.mem_of_mem_take ht⟩
    · obtain ⟨hlen, hmem⟩ := ih b hm
      exact ⟨hlen, fun t ht =>
        List.mem_cons_of_mem c (List.mem_of_mem_drop (hmem t ht))⟩

theorem embedOversizedBatches_bound (oversized : List Str) :
    ∀ b ∈ embedOversizedBatches oversized,
      b.length ≤ BATCH_SIZE ∧ ∀ t ∈ b, t.length ≤ MAX_CHARS_PER_TEXT := by
  intro b hb
  rw [embedOversizedBatches, List.mem_flatMap] at hb
  obtain ⟨text, _, hbb⟩ := hb
  obtain ⟨hlen, hmem⟩ := batchFifty_size_mem _ b hbb
  exact ⟨hlen, fun t ht => splitTextIntoChunks_chunk_le text t (hmem t ht)⟩

theorem batchLoop_batch_bound {ts cur : List Str} {n : Nat}
    (hts : ∀ t ∈ ts, t.length ≤ MAX_CHARS_PER_TEXT)
    (hcur : n = (cur.map List.length).sum)
    (hbound : n ≤ MAX_CHARS_PER_BATCH) :
    ∀ b ∈ batchLoop ts cur n,
      (b.map List.length).sum ≤ MAX_CHARS_PER_BATCH := by
  have hmax : MAX_CHARS_PER_TEXT ≤ MAX_CHARS_PER_BATCH := by
    norm_num [MAX_CHARS_PER_TEXT, MAX_CHARS_PER_BATCH]
  induction ts generalizing cur n with
  | nil =>
    intro b hb
    simp only [batchLoop] at hb
    by_cases h : cur.isEmpty
    · rw [if_pos h] at hb
      cases hb
    · rw [if_neg h, List.mem_singleton] at hb
      subst hb
      exact hcur ▸ hbound
  | cons t rest ih =>
    intro b hb
    have ht : t.length ≤ MAX_CHARS_PER_TEXT := hts t (by simp)
    have hrest : ∀ t ∈ rest, t.length ≤ MAX_CHARS_PER_TEXT :=
      fun u hu => hts u (by simp [hu])
    simp only [batchLoop] at hb
    rw [if_neg (by omega)] at hb
    by_cases h2 : ¬cur.isEmpty = true ∧
        (n + t.length > MAX_CHARS_PER_BATCH ∨
         10 * n > 9 * MAX_CHARS_PER_BATCH)
    · rw [if_pos h2] at hb
      rcases List.mem_cons.mp hb with he | hm
      · subst he
        exact hcur ▸ hbound
      · exact ih hrest (by simp) (by omega) b hm
    · rw [if_neg h2] at hb
      refine ih hrest ?_ ?_ b hb
      · simp [hcur]
      · rcases not_and_or.mp h2 with hemp | hcond
        · have hce : cur = [] := List.isEmpty_iff.mp (not_not.mp hemp)
          subst hce
          simp only [List.map_nil, List.sum_nil] at hcur
          omega
        · push_neg at hcond
          omega

theorem embedNormalTextsBatches_bound {texts : List Str}
    (hts : ∀ t ∈ texts, t.length ≤ MAX_CHARS_PER_TEXT) :
    ∀ b ∈ embedNormalTextsBatches texts,
      (b.map List.length).sum ≤ MAX_CHARS_PER_BATCH := by
  unfold embedNormalTextsBatches
  by_cases hfit : ((texts.map List.length).sum ≤ MAX_CHARS_PER_BATCH)
  · rw [if_pos hfit]
    intro b hb
    rw [List.mem_singleton] at hb
    exact hb ▸ hfit
  · rw [if_neg hfit]
    exact batchLoop_batch_bound hts (by simp) (by simp)

/-- C2 (amended): every batch the normal path passes to `embedMany` has
total character length at most `MAX_CHARS_PER_BATCH` (7200); the batches
built by the oversized path instead satisfy a count/per-item bound — at
most 50 sub-chunks per call, each sub-chunk at most `MAX_CHARS_PER_TEXT`
(6000) characters — and their total may exceed the batch budget.  Hence
every batch `embedTexts` issues satisfies one of the two bounds. -/
theorem embedTexts_batch_budget (texts : List Str) :
    (∀ b ∈ embedNormalTextsBatches (partitionTexts texts).1,
      (b.map List.length).sum ≤ MAX_CHARS_PER_BATCH) ∧
    (∀ b ∈ embedOversizedBatches (partitionTexts texts).2,
      b.length ≤ BATCH_SIZE ∧ ∀ t ∈ b, t.length ≤ MAX_CHARS_PER_TEXT) ∧
    (∀ b ∈ embedTextsBatches texts,
      (b.map List.length).sum ≤ MAX_CHARS_PER_BATCH ∨
      (b.length ≤ BATCH_SIZE ∧ ∀ t ∈ b, t.length ≤ MAX_CHARS_PER_TEXT)) := by
  have hnormle : ∀ t ∈ (partitionTexts texts).1,
      t.length ≤ MAX_CHARS_PER_TEXT := by
    intro t ht
    simp only [partitionTexts, List.mem_filter, decide_eq_true_eq] at ht
    omega
  refine ⟨embedNormalTextsBatches_bound hnormle,
    embedOversizedBatches_bound _, ?_⟩
  intro b hb
  rw [embedTextsBatches] at hb
  by_cases he : texts.isEmpty
  · simp [he] at hb
  · rw [if_neg (by simp [he])] at hb
    by_cases hn : (partitionTexts texts).1.isEmpty
    · rw [if_pos hn] at hb
      exact Or.inr (embedOversizedBatches_bound _ b hb)
    · rw [if_neg hn] at hb
      rcases List.mem_append.mp hb with hov | hnb
      · exact Or.inr (embedOversizedBatches_bound _ b hov)
      · exact Or.inl (embedNormalTextsBatches_bound hnormle b hnb)

/-- Closed witness for `embedTexts_batch_budget`: the single batch issued
for two small texts satisfies the budget disjunction. -/
theorem embedTexts_batch_budget_witness :
    ((([['h', 'i'], ['y', 'o']] : List Str).map List.length).sum ≤
      MAX_CHARS_PER_BATCH) ∨
    (([['h', 'i'], ['y', 'o']] : List Str).length ≤ BATCH_SIZE ∧
      ∀ t ∈ ([['h', 'i'], ['y', 'o']] : List Str),
        t.length ≤ MAX_CHARS_PER_TEXT) :=
  (embedTexts_batch_budget [['h', 'i'], ['y', 'o']]).2.2
    [['h', 'i'], ['y', 'o']] (by decide)

/-! ### Oversized-text behaviour of the batcher, computed symbolically
(counterexamples for C1 and C2) -/

theorem splitNlAux_no_newline {s : Str} (h : '\n' ∉ s) :
    ∀ cur, splitNlAux s cur = [cur.reverse ++ s] := by
  induction s with
  | nil =>
    intro cur
    simp [splitNlAux]
  | cons c rest ih =>
    intro cur
    have hc : ¬c = '\n' := fun he => h (he ▸ List.mem_cons_self c rest)
    rw [splitNlAux, if_neg hc, ih (fun hm => h (List.mem_cons_of_mem c hm))]
    simp

theorem strSplitNl_no_newline {s : Str} (h : '\n' ∉ s) : strSplitNl s = [s] := by
  rw [strSplitNl, splitNlAux_no_newline h]
  simp

theorem dropWhile_replicate_a (m : Nat) :
    (List.replicate m 'a').dropWhile isJsWs = List.replicate m 'a' := by
  cases m with
  | zero => simp
  | succ k =>
    rw [List.replicate_succ, List.dropWhile_cons_of_neg (by decide),
      ← List.replicate_succ]

theorem jsTrim_replicate_a (n : Nat) :
    jsTrim (List.replicate n 'a') = List.replicate n 'a' := by
  rw [jsTrim, dropWhile_replicate_a, List.reverse_replicate,
    dropWhile_replicate_a, List.reverse_replicate]

theorem hardSliceLoop_replicate {k : Nat} (hk : 1 ≤ k) (n : Nat) :
    hardSliceLoop k (List.replicate n 'a') =
      if n = 0 then []
      else if n ≤ k then [List.replicate n 'a']
      else List.replicate k 'a' ::
        hardSliceLoop k (List.replicate (n - k) 'a') := by
  cases n with
  | zero => simp [hardSliceLoop]
  | succ m =>
    rw [if_neg (Nat.succ_ne_zero m), List.replicate_succ, hardSliceLoop,
      ← List.replicate_succ, List.take_replicate, List.drop_replicate]
    by_cases h : m + 1 ≤ k
    · rw [if_pos h]
      have h1 : min k (m + 1) = m + 1 := by omega
      have h2 : m - (k - 1) = 0 := by omega
      rw [h1, h2]
      simp [hardSliceLoop]
    · rw [if_neg h]
      have h1 : min k (m + 1) = k := by omega
      have h2 : m - (k - 1) = m + 1 - k := by omega
      rw [h1, h2]

/-- For a single oversized all-`'a'` text, the batches `embedTexts` issues
are exactly the 50-grouping of the hard slices of the text. -/
theorem embedTextsBatches_single_oversized {n : Nat}
    (h : MAX_CHARS_PER_TEXT < n) :
    embedTextsBatches [List.replicate n 'a'] =
      batchFifty (hardSliceLoop MAX_CHARS_PER_TEXT
        (List.replicate n 'a')) := by
  have hlen : (List.replicate n 'a').length = n := List.length_replicate ..
  have hnl : '\n' ∉ List.replicate n 'a' := by
    intro hm
    exact absurd (List.eq_of_mem_replicate hm) (by decide)
  have hne : List.replicate n 'a' ≠ [] := by
    intro he
    rw [he] at hlen
    simp [MAX_CHARS_PER_TEXT] at hlen h
    omega
  have hpart : partitionTexts [List.replicate n 'a'] =
      ([], [List.replicate n 'a']) := by
    simp [partitionTexts, List.filter_cons, hlen, h, Nat.not_lt.mpr,
      Nat.lt_of_lt_of_le h (Nat.le_refl n)]
  rw [embedTextsBatches, if_neg (by simp), hpart]
  simp only [List.isEmpty_nil, if_pos]
  rw [embedOversizedBatches]
  simp only [List.flatMap_cons, List.flatMap_nil, List.append_nil]
  congr 1
  rw [splitTextIntoChunks, if_neg (by rw [hlen]; omega)]
  rw [strSplitNl_no_newline hnl]
  rw [splitLinesIntoChunks, splitLinesAux, if_neg (by simp)]
  simp only [List.isEmpty_nil, if_true, List.nil_append]
  rw [splitLinesAux]
  rw [if_pos (by rw [jsTrim_replicate_a]; exact hne)]
  rw [jsTrim_replicate_a]
  rw [splitOversizedChunks]
  simp only [List.flatMap_cons, List.flatMap_nil, List.append_nil]
  rw [if_neg (by rw [hlen]; omega)]

/-- The full batch list for a single all-`'a'` text of length between 6001
and 12000: one batch holding the two hard slices. -/
theorem embedTextsBatches_replicate (n : Nat) (h1 : 6000 < n)
    (h2 : n ≤ 12000) :
    embedTextsBatches [List.replicate n 'a'] =
      [[List.replicate 6000 'a', List.replicate (n - 6000) 'a']] := by
  rw [embedTextsBatches_single_oversized
    (by simp only [MAX_CHARS_PER_TEXT]; omega)]
  simp only [MAX_CHARS_PER_TEXT]
  rw [hardSliceLoop_replicate (by norm_num) n, if_neg (by omega),
    if_neg (by omega)]
  rw [hardSliceLoop_replicate (by norm_num) (n - 6000), if_neg (by omega),
    if_pos (by omega)]
  rw [batchFifty]
  rw [List.take_of_length_le
    (by simp only [List.length_cons, List.length_nil, BATCH_SIZE]; omega)]
  rw [List.drop_eq_nil_of_le
    (by simp only [List.length_cons, List.length_nil, BATCH_SIZE]; omega)]
  rw [batchFifty]

/-- Counterexample to C1 as stated: for the single text of 6001 `'a'`s —
over the 6000-character per-item ceiling — `embedTexts` returns two vectors
for one input text, so the i-th vector is not the embedding of the i-th
text. -/
theorem embedTexts_not_one_to_one :
    (embedTexts (fun s : Str => s.length)
      [List.replicate 6001 'a']).length = 2 ∧
    ([List.replicate 6001 'a'] : List Str).length = 1 := by
  constructor
  · rw [embedTexts, embedTextsBatches_replicate 6001 (by norm_num) (by norm_num)]
    simp only [List.flatMap_cons, List.flatMap_nil, List.map_cons,
      List.map_nil, List.append_nil, List.length_cons, List.length_nil]
  · simp only [List.length_cons, List.length_nil]

/-- Counterexample to C2 as stated: for the single text of 7201 `'a'`s the
oversized path issues one `embedMany` batch holding two sub-chunks of 6000
and 1201 characters — 7201 characters in total, above
`MAX_CHARS_PER_BATCH = 7200`, and not a single-item batch. -/
theorem embedTexts_batch_over_budget :
    embedTextsBatches [List.replicate 7201 'a'] =
      [[List.replicate 6000 'a', List.replicate 1201 'a']] ∧
    (([List.replicate 6000 'a', List.replicate 1201 'a']).map
      List.length).sum = 7201 ∧
    ¬(7201 ≤ MAX_CHARS_PER_BATCH) ∧
    ([List.replicate 6000 'a', List.replicate 1201 'a']).length = 2 := by
  refine ⟨?_,
    by simp only [List.map_cons, List.map_nil, List.length_replicate,
      List.sum_cons, List.sum_nil]; omega,
    by simp only [MAX_CHARS_PER_BATCH]; omega,
    by simp only [List.length_cons, List.length_nil]⟩
  have h := embedTextsBatches_replicate 7201 (by norm_num) (by norm_num)
  have hs : (7201 : Nat) - 6000 = 1201 := by norm_num
  rw [hs] at h
  exact h

/-! ### Reranker (src/db/rerank.ts) and hybrid search (C6)

`embedText` and `cosineSimilarity` come from the external `ai` package, so
they are abstracted as `emb` and `sim`; scores are rationals in place of JS
floats.  `scored.sort((a, b) => b.score - a.score)` is the stable
descending-by-score sort, modelled by `mergeSort` with `b.score ≤ a.score`. -/

/-- `SearchResult` from src/types.ts (the `section` field is renamed
`sectionName`; `section` is reserved in Lean). -/
structure SearchResult where
  id : String
  path : String
  sectionName : String
  content : String
  score : ℚ
  deriving DecidableEq, Repr

/-- `rerankResults(query, results, topN)`: pass-through when the candidate
set is no larger than `topN`, otherwise rescore every candidate by
similarity between the query embedding and its content embedding, sort
descending by score and truncate. -/
def rerankResults {V : Type} (emb : String → V) (sim : V → V → ℚ)
    (query : String) (results : List SearchResult) (topN : Nat) :
    List SearchResult :=
  if results.isEmpty then []
  else if results.length ≤ topN then results
  else
    let queryEmbedding := emb query
    let scored := results.map
      (fun r => { r with score := sim queryEmbedding (emb r.content) })
    (scored.mergeSort (fun a b => b.score ≤ a.score)).take topN

/-- `DocIndex.hybridSearch(query, limit)` with the external vector search
abstracted: semantic search supplies `candidates` (requested as `2 * limit`
results), which are reranked down to `limit`. -/
def hybridSearchFromCandidates {V : Type} (emb : String → V)
    (sim : V → V → ℚ) (query : String) (candidates : List SearchResult)
    (limit : Nat) : List SearchResult :=
  rerankResults emb sim query candidates limit

theorem rerankResults_of_le {V : Type} (emb : String → V) (sim : V → V → ℚ)
    (query : String) {results : List SearchResult} {topN : Nat}
    (h : results.length ≤ topN) :
    rerankResults emb sim query results topN = results := by
  rw [rerankResults]
  by_cases he : results.isEmpty
  · rw [if_pos he, List.isEmpty_iff.mp he]
  · rw [if_neg he, if_pos h]

theorem rerankResults_of_gt {V : Type} (emb : String → V) (sim : V → V → ℚ)
    (query : String) {results : List SearchResult} {topN : Nat}
    (h : topN < results.length) :
    (rerankResults emb sim query results topN).length = topN ∧
    (rerankResults emb sim query results topN).Pairwise
      (fun a b => b.score ≤ a.score) ∧
    (∀ r ∈ rerankResults emb sim query results topN, ∃ r₀ ∈ results,
      r = { r₀ with score := sim (emb query) (emb r₀.content) }) := by
  have hne : ¬results.isEmpty := by
    rw [List.isEmpty_iff]
    intro he
    rw [he] at h
    simp at h
  rw [rerankResults, if_neg hne, if_neg (Nat.not_le.mpr h)]
  set scored := results.map
    (fun r => { r with score := sim (emb query) (emb r.content) }) with hscored
  have hperm := List.mergeSort_perm scored
    (fun a b => decide (b.score ≤ a.score))
  refine ⟨?_, ?_, ?_⟩
  · rw [List.length_take, hperm.length_eq, hscored, List.length_map]
    omega
  · have hsorted := @List.sorted_mergeSort SearchResult
      (fun a b : SearchResult => decide (b.score ≤ a.score))
      (fun a b c hab hbc => by
        simp only [decide_eq_true_eq] at hab hbc ⊢
        exact le_trans hbc hab)
      (fun a b => by
        simp only [Bool.or_eq_true, decide_eq_true_eq]
        exact le_total b.score a.score)
      scored
    have := hsorted.sublist (List.take_sublist topN _)
    exact this.imp (fun hab => by simpa using hab)
  · intro r hr
    have hmem : r ∈ scored :=
      hperm.mem_iff.mp (List.mem_of_mem_take hr)
    rw [hscored, List.mem_map] at hmem
    obtain ⟨r₀, hr₀, he⟩ := hmem
    exact ⟨r₀, hr₀, he.symm⟩

/-- C6: `rerankResults` returns `results` unchanged when
`results.length ≤ topN`; otherwise it returns exactly `topN` results, each
an input candidate rescored by similarity between the query embedding and
its content embedding, in descending score order.  Consequently
`hybridSearch` given `2 × limit` candidates returns exactly `limit`
results, a rescored subset of the candidates, sorted descending by rerank
score. -/
theorem rerank_hybrid_spec {V : Type} (emb : String → V) (sim : V → V → ℚ)
    (query : String) (results : List SearchResult) (topN : Nat) :
    (results.length ≤ topN →
      rerankResults emb sim query results topN = results) ∧
    (topN < results.length →
      (rerankResults emb sim query results topN).length = topN ∧
      (rerankResults emb sim query results topN).Pairwise
        (fun a b => b.score ≤ a.score) ∧
      (∀ r ∈ rerankResults emb sim query results topN, ∃ r₀ ∈ results,
        r = { r₀ with score := sim (emb query) (emb r₀.content) })) ∧
    (∀ limit : Nat, ∀ candidates : List SearchResult,
      candidates.length = 2 * limit →
      (hybridSearchFromCandidates emb sim query candidates limit).length =
        limit ∧
      (hybridSearchFromCandidates emb sim query candidates limit).Pairwise
        (fun a b => b.score ≤ a.score) ∧
      (∀ r ∈ hybridSearchFromCandidates emb sim query candidates limit,
        ∃ r₀ ∈ candidates,
          r = { r₀ with score := sim (emb query) (emb r₀.content) })) := by
  refine ⟨fun h => rerankResults_of_le emb sim query h,
    fun h => rerankResults_of_gt emb sim query h, ?_⟩
  intro limit candidates hlen
  rw [hybridSearchFromCandidates]
  rcases Nat.eq_zero_or_pos limit with hz | hpos
  · subst hz
    have hc : candidates = [] := List.length_eq_zero.mp (by omega)
    subst hc
    rw [rerankResults_of_le emb sim query (by simp)]
    exact ⟨rfl, List.Pairwise.nil, by simp⟩
  · exact rerankResults_of_gt emb sim query (by omega)

/-- Closed witness for `rerank_hybrid_spec`: four candidates reranked to
two, scoring by a concrete similarity. -/
theorem rerank_hybrid_spec_witness :
    (rerankResults (fun s : String => (s.length : ℚ))
      (fun a b => a * b) "qq"
      [⟨"1", "p", "s", "xxx", 0⟩, ⟨"2", "p", "s", "x", 0⟩,
       ⟨"3", "p", "s", "xxxx", 0⟩, ⟨"4", "p", "s", "xx", 0⟩] 2).length = 2 :=
  ((rerank_hybrid_spec (fun s : String => (s.length : ℚ))
    (fun a b => a * b) "qq"
    [⟨"1", "p", "s", "xxx", 0⟩, ⟨"2", "p", "s", "x", 0⟩,
     ⟨"3", "p", "s", "xxxx", 0⟩, ⟨"4", "p", "s", "xx", 0⟩] 2).2.1
    (by norm_num)).1

/-! ### Code chunker: TS symbol extraction (src/index/code-index.ts) (C8)

The per-line regex tests (`TS_SYMBOL_PATTERNS`) are abstracted as a matcher
returning the first matching pattern's key and captured name; every claimed
property (spans, disjointness, ordering, termination) holds for any
matcher.  Comment/blank detection and the brace-balance scan are modelled
character-exactly. -/

/-- `CodeChunk["symbolType"]`: `function|class|interface|type|const|block`
(`classDecl` stands for the reserved word). -/
inductive SymbolType where
  | function
  | classDecl
  | interface
  | type
  | const
  | block
  deriving DecidableEq, Repr

/-- `mapSymbolType(patternKey)` with its `?? "block"` default. -/
def mapSymbolType (patternKey : String) : SymbolType :=
  if patternKey = "arrowFunction" then .function
  else if patternKey = "class" then .classDecl
  else if patternKey = "constExport" then .const
  else if patternKey = "function" then .function
  else if patternKey = "interface" then .interface
  else if patternKey = "type" then .type
  else .block

/-- `SymbolInfo`. -/
structure SymbolInfo where
  name : Str
  type : SymbolType
  startLine : Nat
  endLine : Nat
  content : Str
  deriving DecidableEq, Repr

/-- The inner `for (const char of line)` of `findSymbolEnd`: update
`(braceCount, foundOpenBrace)` across one line. -/
def lineBraceScan (line : Str) (braceCount : Int) (foundOpenBrace : Bool) :
    Int × Bool :=
  line.foldl
    (fun (st : Int × Bool) c =>
      if c = '{' then (st.1 + 1, true)
      else if c = '}' then (st.1 - 1, st.2)
      else st)
    (braceCount, foundOpenBrace)

/-- The line loop of `findSymbolEnd`, from index `i` with the running brace
state. -/
def findSymbolEndAux (lines : List Str) (startIdx : Nat) (i : Nat)
    (braceCount : Int) (foundOpenBrace : Bool) : Nat :=
  if h : i < lines.length then
    let line := lines[i]
    let st := lineBraceScan line braceCount foundOpenBrace
    if st.2 ∧ st.1 = 0 then i + 1
    else if ¬st.2 ∧ startIdx < i ∧
        ((jsTrim line).getLast? = some ';' ∨ jsTrim line = []) then i + 1
    else findSymbolEndAux lines startIdx (i + 1) st.1 st.2
  else
    min (startIdx + 50) lines.length
termination_by lines.length - i

/-- `findSymbolEnd(lines, startIdx)`. -/
def findSymbolEnd (lines : List Str) (startIdx : Nat) : Nat :=
  findSymbolEndAux lines startIdx startIdx 0 false

theorem findSymbolEndAux_bounds (lines : List Str) (startIdx : Nat)
    (hs : startIdx < lines.length) :
    ∀ i braceCount foundOpenBrace, startIdx ≤ i →
      startIdx < findSymbolEndAux lines startIdx i braceCount
          foundOpenBrace ∧
        findSymbolEndAux lines startIdx i braceCount foundOpenBrace ≤
          lines.length := by
  suffices hgen : ∀ n i braceCount foundOpenBrace,
      lines.length - i = n → startIdx ≤ i →
      startIdx < findSymbolEndAux lines startIdx i braceCount
          foundOpenBrace ∧
        findSymbolEndAux lines startIdx i braceCount foundOpenBrace ≤
          lines.length by
    intro i braceCount foundOpenBrace hi
    exact hgen (lines.length - i) i braceCount foundOpenBrace rfl hi
  intro n
  induction n using Nat.strong_induction_on with
  | _ n ih =>
    intro i braceCount foundOpenBrace hn hi
    rw [findSymbolEndAux]
    by_cases h : i < lines.length
    · rw [dif_pos h]
      set st := lineBraceScan lines[i] braceCount foundOpenBrace
      by_cases h1 : st.2 ∧ st.1 = 0
      · rw [if_pos h1]
        exact ⟨by omega, by omega⟩
      · rw [if_neg h1]
        by_cases h2 : ¬st.2 ∧ startIdx < i ∧
            ((jsTrim lines[i]).getLast? = some ';' ∨ jsTrim lines[i] = [])
        · rw [if_pos h2]
          exact ⟨by omega, by omega⟩
        · rw [if_neg h2]
          exact ih (lines.length - (i + 1)) (by omega) (i + 1) st.1 st.2
            rfl (by omega)
    · rw [dif_neg h]
      exact ⟨by omega, by omega⟩

theorem findSymbolEnd_bounds (lines : List Str) (startIdx : Nat)
    (hs : startIdx < lines.length) :
    startIdx < findSymbolEnd lines startIdx ∧
      findSymbolEnd lines startIdx ≤ lines.length :=
  findSymbolEndAux_bounds lines startIdx hs startIdx 0 false (Nat.le_refl _)

/-- The scan loop of `extractTsSymbols`: skip blank and comment lines, on a
pattern match compute the symbol end, discard symbols spanning fewer than 2
lines, and continue from the symbol's end line. -/
def extractTsAux (matcher : Str → Option (String × Str))
    (lines : List Str) (i : Nat) : List SymbolInfo :=
  if h : i < lines.length then
    let trimmed := jsTrim lines[i]
    if trimmed = [] ∨ trimmed.take 2 = ['/', '/'] ∨
        trimmed.take 2 = ['/', '*'] then
      extractTsAux matcher lines (i + 1)
    else
      match matcher trimmed with
      | some (patternKey, name) =>
        let endLine := findSymbolEnd lines i
        let rest := extractTsAux matcher lines endLine
        if 2 ≤ endLine - i then
          { name := name, type := mapSymbolType patternKey,
            startLine := i + 1, endLine := endLine,
            content := List.intercalate ['\n']
              ((lines.drop i).take (endLine - i)) } :: rest
        else rest
      | none => extractTsAux matcher lines (i + 1)
  else []
termination_by lines.length - i
decreasing_by
  all_goals
    first
      | omega
      | · have := findSymbolEnd_bounds lines i h
          omega

/-- `extractTsSymbols(content)` for an abstract pattern matcher. -/
def extractTsSymbols (matcher : Str → Option (String × Str))
    (content : Str) : List SymbolInfo :=
  extractTsAux matcher (strSplitNl content) 0

theorem extractTsAux_props (matcher : Str → Option (String × Str))
    (lines : List Str) :
    ∀ i, (∀ s ∈ extractTsAux matcher lines i,
        i + 1 ≤ s.startLine ∧ s.startLine + 1 ≤ s.endLine ∧
          s.endLine ≤ lines.length) ∧
      (extractTsAux matcher lines i).Pairwise
        (fun a b => a.endLine < b.startLine) := by
  suffices hgen : ∀ n i, lines.length - i = n →
      (∀ s ∈ extractTsAux matcher lines i,
        i + 1 ≤ s.startLine ∧ s.startLine + 1 ≤ s.endLine ∧
          s.endLine ≤ lines.length) ∧
      (extractTsAux matcher lines i).Pairwise
        (fun a b => a.endLine < b.startLine) by
    intro i
    exact hgen (lines.length - i) i rfl
  intro n
  induction n using Nat.strong_induction_on with
  | _ n ih =>
    intro i hn
    subst hn
    rw [extractTsAux]
    by_cases h : i < lines.length
    · rw [dif_pos h]
      by_cases hskip : jsTrim lines[i] = [] ∨
          (jsTrim lines[i]).take 2 = ['/', '/'] ∨
          (jsTrim lines[i]).take 2 = ['/', '*']
      · rw [if_pos hskip]
        obtain ⟨hmem, hpw⟩ := ih (lines.length - (i + 1)) (by omega) (i + 1) rfl
        exact ⟨fun s hs => by have := hmem s hs; omega, hpw⟩
      · rw [if_neg hskip]
        cases hm : matcher (jsTrim lines[i]) with
        | none =>
          obtain ⟨hmem, hpw⟩ := ih (lines.length - (i + 1)) (by omega) (i + 1) rfl
          exact ⟨fun s hs => by have := hmem s hs; omega, hpw⟩
        | some pk =>
          obtain ⟨patternKey, name⟩ := pk
          dsimp only
          have hb := findSymbolEnd_bounds lines i h
          obtain ⟨hmem, hpw⟩ := ih (lines.length - findSymbolEnd lines i)
            (by omega) (findSymbolEnd lines i) rfl
          by_cases hspan : 2 ≤ findSymbolEnd lines i - i
          · rw [if_pos hspan]
            refine ⟨?_, ?_⟩
            · intro s hs
              rcases List.mem_cons.mp hs with he | hm2
              · subst he
                refine ⟨?_, ?_, ?_⟩ <;> dsimp only <;> omega
              · have := hmem s hm2
                omega
            · rw [List.pairwise_cons]
              refine ⟨?_, hpw⟩
              intro s hs
              have := hmem s hs
              dsimp only
              omega
          · rw [if_neg hspan]
            exact ⟨fun s hs => by have := hmem s hs; omega, hpw⟩
    · rw [dif_neg h]
      simp

/-- C8: every symbol `extractTsSymbols` emits spans at least 2 lines
(`startLine + 1 ≤ endLine`, inclusive 1-based span), the emitted symbols'
line ranges are pairwise non-overlapping and in increasing order (each
symbol ends strictly before the next begins, because the cursor advances to
the computed end line), and every range lies within the file; the scan is a
total function, so it terminates on every input. -/
theorem extractTsSymbols_spans (matcher : Str → Option (String × Str))
    (content : Str) :
    (∀ s ∈ extractTsSymbols matcher content,
      s.startLine + 1 ≤ s.endLine ∧
      s.endLine ≤ (strSplitNl content).length) ∧
    (extractTsSymbols matcher content).Pairwise
      (fun a b => a.endLine < b.startLine) := by
  obtain ⟨hmem, hpw⟩ := extractTsAux_props matcher (strSplitNl content) 0
  exact ⟨fun s hs => ⟨(hmem s hs).2.1, (hmem s hs).2.2⟩, hpw⟩

/-- Closed witness for `extractTsSymbols_spans` on a concrete matcher and
source text. -/
theorem extractTsSymbols_spans_witness :
    (extractTsSymbols
      (fun t => if t.take 9 = ('f' :: 'u' :: 'n' :: 'c' :: 't' :: 'i' ::
          'o' :: 'n' :: ' ' :: []) then some ("function", t.drop 9)
        else none)
      ('f' :: 'u' :: 'n' :: 'c' :: 't' :: 'i' :: 'o' :: 'n' :: ' ' :: 'f' ::
        '(' :: ')' :: ' ' :: '{' :: '\n' :: 'x' :: '\n' :: '}' ::
        [])).Pairwise (fun a b => a.endLine < b.startLine) :=
  (extractTsSymbols_spans
    (fun t => if t.take 9 = ('f' :: 'u' :: 'n' :: 'c' :: 't' :: 'i' ::
        'o' :: 'n' :: ' ' :: []) then some ("function", t.drop 9)
      else none)
    ('f' :: 'u' :: 'n' :: 'c' :: 't' :: 'i' :: 'o' :: 'n' :: ' ' :: 'f' ::
      '(' :: ')' :: ' ' :: '{' :: '\n' :: 'x' :: '\n' :: '}' :: [])).2

/-! ### Code chunker: line-window fallback (src/index/code-index.ts) (C9) -/

/-- `CodeChunk` (pre-vector fields used by `chunkByLines`). -/
structure CodeChunk where
  id : String
  path : String
  language : String
  symbol : String
  symbolType : SymbolType
  startLine : Nat
  endLine : Nat
  content : Str
  deriving DecidableEq, Repr

/-- `CHUNK_SIZE = 60`. -/
def CHUNK_SIZE : Nat := 60

/-- `OVERLAP = 10`. -/
def OVERLAP : Nat := 10

/-- The window loop of `chunkByLines`: 60-line windows, cursor advancing by
`CHUNK_SIZE - OVERLAP = 50`, emitting a chunk whenever the trimmed window
content is longer than 50 characters. -/
def chunkByLinesAux (lines : List Str) (path language : String)
    (i chunkIndex : Nat) : List CodeChunk :=
  if _h : i < lines.length then
    let endLine := min (i + CHUNK_SIZE) lines.length
    let chunkContent := jsTrim
      (List.intercalate ['\n'] ((lines.drop i).take (endLine - i)))
    if chunkContent.length > 50 then
      { id := path ++ "#chunk:" ++ toString chunkIndex,
        content := chunkContent, endLine := endLine, language := language,
        path := path, startLine := i + 1,
        symbol := "lines " ++ toString (i + 1) ++ "-" ++ toString endLine,
        symbolType := .block } ::
        chunkByLinesAux lines path language (i + (CHUNK_SIZE - OVERLAP))
          (chunkIndex + 1)
    else
      chunkByLinesAux lines path language (i + (CHUNK_SIZE - OVERLAP))
        chunkIndex
  else []
termination_by lines.length - i
decreasing_by
  all_goals
    simp only [CHUNK_SIZE, OVERLAP]
    omega

/-- `chunkByLines(content, path, language)`. -/
def chunkByLines (content : Str) (path language : String) :
    List CodeChunk :=
  chunkByLinesAux (strSplitNl content) path language 0 0

/-- The trimmed content of the window starting at 0-based line `i`. -/
def windowContent (lines : List Str) (i : Nat) : Str :=
  jsTrim (List.intercalate ['\n']
    ((lines.drop i).take (min (i + CHUNK_SIZE) lines.length - i)))

theorem chunkByLinesAux_sound (lines : List Str) (path language : String) :
    ∀ n i chunkIndex, lines.length - i = n →
      ∀ c ∈ chunkByLinesAux lines path language i chunkIndex,
        (∃ k : Nat, c.startLine = i + 50 * k + 1) ∧
        c.startLine - 1 < lines.length ∧
        c.endLine = min (c.startLine - 1 + CHUNK_SIZE) lines.length ∧
        c.content = windowContent lines (c.startLine - 1) ∧
        50 < c.content.length := by
  intro n
  induction n using Nat.strong_induction_on with
  | _ n ih =>
    intro i chunkIndex hn c hc
    subst hn
    rw [chunkByLinesAux] at hc
    by_cases h : i < lines.length
    · rw [dif_pos h] at hc
      have hstep : (0 : Nat) < CHUNK_SIZE - OVERLAP := by
        simp [CHUNK_SIZE, OVERLAP]
      by_cases hbig : (jsTrim (List.intercalate ['\n']
          ((lines.drop i).take (min (i + CHUNK_SIZE) lines.length - i)))).length > 50
      · rw [if_pos hbig] at hc
        rcases List.mem_cons.mp hc with he | hm
        · subst he
          refine ⟨⟨0, by dsimp only⟩,
            by dsimp only; omega, ?_, ?_, ?_⟩
          · dsimp only
            omega
          · dsimp only [windowContent]
            have : i + 1 - 1 = i := by omega
            rw [this]
          · dsimp only
            exact hbig
        · obtain ⟨⟨k, hk⟩, hlt, hend, hcon, hlen⟩ :=
            ih (lines.length - (i + (CHUNK_SIZE - OVERLAP)))
              (by simp only [CHUNK_SIZE, OVERLAP] at hstep ⊢; omega)
              (i + (CHUNK_SIZE - OVERLAP)) (chunkIndex + 1) rfl c hm
          refine ⟨⟨k + 1, ?_⟩, hlt, hend, hcon, hlen⟩
          simp only [CHUNK_SIZE, OVERLAP] at hk
          omega
      · rw [if_neg hbig] at hc
        obtain ⟨⟨k, hk⟩, hlt, hend, hcon, hlen⟩ :=
          ih (lines.length - (i + (CHUNK_SIZE - OVERLAP)))
            (by simp only [CHUNK_SIZE, OVERLAP] at hstep ⊢; omega)
            (i + (CHUNK_SIZE - OVERLAP)) chunkIndex rfl c hc
        refine ⟨⟨k + 1, ?_⟩, hlt, hend, hcon, hlen⟩
        simp only [CHUNK_SIZE, OVERLAP] at hk
        omega
    · rw [dif_neg h] at hc
      cases hc

theorem chunkByLinesAux_complete (lines : List Str) (path language : String) :
    ∀ n i chunkIndex, lines.length - i = n →
      ∀ k : Nat, i + 50 * k < lines.length →
        50 < (windowContent lines (i + 50 * k)).length →
        ∃ c ∈ chunkByLinesAux lines path language i chunkIndex,
          c.startLine = i + 50 * k + 1 := by
  intro n
  induction n using Nat.strong_induction_on with
  | _ n ih =>
    intro i chunkIndex hn k hk hbig
    subst hn
    have h : i < lines.length := by omega
    rw [chunkByLinesAux, dif_pos h]
    have hstep : CHUNK_SIZE - OVERLAP = 50 := by
      simp [CHUNK_SIZE, OVERLAP]
    cases k with
    | zero =>
      simp only [Nat.mul_zero, Nat.add_zero] at hk hbig
      rw [if_pos (by simpa [windowContent] using hbig)]
      exact ⟨_, List.mem_cons_self .., by dsimp only⟩
    | succ m =>
      have hrec : ∃ c ∈ chunkByLinesAux lines path language
          (i + (CHUNK_SIZE - OVERLAP)) (chunkIndex + 1),
            c.startLine = i + (CHUNK_SIZE - OVERLAP) + 50 * m + 1 := by
        refine ih (lines.length - (i + (CHUNK_SIZE - OVERLAP)))
          (by omega) (i + (CHUNK_SIZE - OVERLAP)) (chunkIndex + 1) rfl m
          (by omega) ?_
        rw [hstep]
        have harg : i + 50 + 50 * m = i + 50 * (m + 1) := by ring
        rw [harg]
        exact hbig
      have hrec2 : ∃ c ∈ chunkByLinesAux lines path language
          (i + (CHUNK_SIZE - OVERLAP)) chunkIndex,
            c.startLine = i + (CHUNK_SIZE - OVERLAP) + 50 * m + 1 := by
        refine ih (lines.length - (i + (CHUNK_SIZE - OVERLAP)))
          (by omega) (i + (CHUNK_SIZE - OVERLAP)) chunkIndex rfl m
          (by omega) ?_
        rw [hstep]
        have harg : i + 50 + 50 * m = i + 50 * (m + 1) := by ring
        rw [harg]
        exact hbig
      by_cases hbig0 : (jsTrim (List.intercalate ['\n']
          ((lines.drop i).take (min (i + CHUNK_SIZE) lines.length - i)))).length > 50
      · rw [if_pos hbig0]
        obtain ⟨c, hcm, hcs⟩ := hrec
        exact ⟨c, List.mem_cons_of_mem _ hcm, by rw [hcs, hstep]; ring⟩
      · rw [if_neg hbig0]
        obtain ⟨c, hcm, hcs⟩ := hrec2
        exact ⟨c, hcm, by rw [hcs, hstep]; ring⟩

/-- C9 (amended): the fallback chunker's windows are at most 60 lines,
start lines advance by exactly 50 (every chunk starts at line `50·k + 1`
and covers up to line `min(50·k + 60, #lines)`), each emitted chunk's
content is the trimmed window, and a window is emitted if and only if its
trimmed content is longer than 50 characters (windows of exactly 50
characters or fewer are discarded). -/
theorem chunkByLines_windows (content : Str) (path language : String) :
    (∀ c ∈ chunkByLines content path language,
      (∃ k : Nat, c.startLine = 50 * k + 1) ∧
      c.startLine - 1 < (strSplitNl content).length ∧
      c.endLine = min (c.startLine - 1 + 60) (strSplitNl content).length ∧
      c.endLine - (c.startLine - 1) ≤ 60 ∧
      c.content = windowContent (strSplitNl content) (c.startLine - 1) ∧
      50 < c.content.length) ∧
    (∀ k : Nat, 50 * k < (strSplitNl content).length →
      50 < (windowContent (strSplitNl content) (50 * k)).length →
      ∃ c ∈ chunkByLines content path language,
        c.startLine = 50 * k + 1) := by
  constructor
  · intro c hc
    obtain ⟨⟨k, hk⟩, hlt, hend, hcon, hlen⟩ :=
      chunkByLinesAux_sound (strSplitNl content) path language
        ((strSplitNl content).length) 0 0 (by omega) c hc
    simp only [Nat.zero_add] at hk
    refine ⟨⟨k, hk⟩, hlt, ?_, ?_, hcon, hlen⟩
    · simpa [CHUNK_SIZE] using hend
    · simp only [CHUNK_SIZE] at hend
      omega
  · intro k hk hbig
    have := chunkByLinesAux_complete (strSplitNl content) path language
      ((strSplitNl content).length) 0 0 (by omega) k (by omega)
      (by simpa using hbig)
    simpa using this

/-- Closed witness for `chunkByLines_windows`: a 60-character single-line
file produces a chunk starting at line 1. -/
theorem chunkByLines_windows_witness :
    ∃ c ∈ chunkByLines (List.replicate 60 'a') "p" "ts",
      c.startLine = 50 * 0 + 1 :=
  (chunkByLines_windows (List.replicate 60 'a') "p" "ts").2 0 (by decide)
    (by decide)

/-- Counterexample to C9 as stated: a window whose trimmed content has
exactly 50 characters (not under 50) is nevertheless discarded — the code
emits only windows strictly longer than 50 characters. -/
theorem chunkByLines_discards_exact_fifty :
    (jsTrim (List.replicate 50 'a')).length = 50 ∧
    chunkByLines (List.replicate 50 'a') "p" "ts" = [] := by
  constructor
  · rw [jsTrim_replicate_a, List.length_replicate]
  · rw [List.eq_nil_iff_forall_not_mem]
    intro c hc
    have h1 : '\n' ∉ List.replicate 50 'a' := by
      intro hm
      exact absurd (List.eq_of_mem_replicate hm) (by decide)
    rw [chunkByLines, strSplitNl_no_newline h1] at hc
    obtain ⟨⟨k, hk⟩, hlt, hend, hcon, hlen⟩ :=
      chunkByLinesAux_sound [List.replicate 50 'a'] "p" "ts" _ 0 0 rfl c hc
    have h0 : c.startLine - 1 = 0 := by
      simp only [List.length_cons, List.length_nil] at hlt
      omega
    rw [h0] at hcon
    have hw : windowContent [List.replicate 50 'a'] 0 =
        List.replicate 50 'a' := by
      rw [windowContent, List.drop_zero, List.take_of_length_le
        (by simp only [CHUNK_SIZE, List.length_cons, List.length_nil]; omega)]
      have hsing : List.intercalate ['\n'] [List.replicate 50 'a'] =
          List.replicate 50 'a' := by
        simp [List.intercalate]
      rw [hsing, jsTrim_replicate_a]
    rw [hw] at hcon
    rw [hcon, List.length_replicate] at hlen
    omega

end Docbot
